import Mathlib

/-!
Verification development for the pcs meet-in-the-middle / parallel collision
search library.  The definitions below are shallow embeddings of the C++
sources:

* CompactDict (src/include/mpi_naive_isend.hpp, lines 22-74): a fixed-capacity
  open-addressed dictionary with linear probing.  The table is a vector of
  (k : u32, v : u64) entries, modelled as a List (Nat × Nat); the empty slot
  sentinel is k = 0xffffffff and stored keys are truncated mod 0xfffffffb.
  The C++ insert loop has no probe budget (it spins forever on a full table),
  so the loop is embedded with an explicit fuel parameter; fuel n_slots is
  enough to reach any empty slot, and on a full table the loop yields none
  for every fuel.
* generate_dist_point / is_distinguished_point (src/mitm_sequential.hpp,
  lines 101-147): the distinguished-point chain walker.
* walk (src/mitm_sequential.hpp, lines 154-208): the collision resolver.
* the per-version attempt loop of collision() (src/mitm_sequential.hpp,
  lines 444-467), modelled by its counter dynamics.
* EqualSizeClawWrapper (src/include/mitm.hpp, lines 69-120).
* the sender seed schedule (src/include/mpi/pcs_sender.hpp, lines 29-58).
* the phase-1 receiver filter of naive_mpi_claw_search
  (src/include/mpi_naive_isend.hpp, lines 139-158).

Machine words are modelled as Nat with explicit reductions mod 2^64 where
C++ u64 arithmetic can overflow.
-/

/-! ## Compact dictionary (src/include/mpi_naive_isend.hpp) -/

/-- Empty-slot sentinel key 0xffffffff (CompactDict constructor). -/
def EMPTYK : Nat := 4294967295

/-- Truncation modulus 0xfffffffb used for stored keys. -/
def DICTP : Nat := 4294967291

/-- Stored (truncated) key: key % 0xfffffffb. -/
def truncKey (key : Nat) : Nat := key % DICTP

/-- Home slot of a key: (key ^ (key >> 32)) % n_slots. -/
def slotOf (nslots key : Nat) : Nat := (key ^^^ (key >>> 32)) % nslots

/-- Probe-step: h += 1; if (h == n_slots) h = 0. -/
def nextSlot (nslots h : Nat) : Nat := if h + 1 = nslots then 0 else h + 1

/-- Entry of the table at index h.  Out-of-range reads return the
empty sentinel; the source never indexes out of range because every probe
position is reduced mod n_slots. -/
def ent : List (Nat × Nat) → Nat → Nat × Nat
  | [], _ => (EMPTYK, 0)
  | e :: _, 0 => e
  | _ :: rest, h + 1 => ent rest h

/-- The probe loop of CompactDict::insert: scan from slot h for a slot whose
key is the empty sentinel.  The C++ loop is unbounded; fuel makes the
recursion total, and a result of none means the loop is still spinning after
fuel probes. -/
def findFree (A : List (Nat × Nat)) : Nat → Nat → Option Nat
  | 0, _ => none
  | fuel + 1, h =>
    if (ent A h).1 = EMPTYK then some h
    else findFree A fuel (nextSlot A.length h)

/-- CompactDict::insert: probe from the home slot and write
(key % 0xfffffffb, value) into the first empty slot.  The fuel n_slots
reaches every slot once; none marks the diverging full-table case. -/
def dictInsert (A : List (Nat × Nat)) (key value : Nat) : Option (List (Nat × Nat)) :=
  (findFree A A.length (slotOf A.length key)).map fun j => A.set j (truncKey key, value)

/-- First loop of CompactDict::probe: scan from slot h; stop with none on an
empty slot, or return the first slot whose stored key equals t. -/
def probeScan (A : List (Nat × Nat)) (t : Nat) : Nat → Nat → Option Nat
  | 0, _ => none
  | fuel + 1, h =>
    if (ent A h).1 = EMPTYK then none
    else if (ent A h).1 = t then some h
    else probeScan A t fuel (nextSlot A.length h)

/-- Second loop of CompactDict::probe: collect the values of the contiguous
run of slots whose stored key equals t. -/
def collectFrom (A : List (Nat × Nat)) (t : Nat) : Nat → Nat → List Nat
  | 0, _ => []
  | fuel + 1, h =>
    if (ent A h).1 = t then (ent A h).2 :: collectFrom A t fuel (nextSlot A.length h)
    else []

/-- CompactDict::probe: return the values stored under the truncated key of
bigkey, scanning from its home slot. -/
def dictProbe (A : List (Nat × Nat)) (bigkey : Nat) : List Nat :=
  match probeScan A (truncKey bigkey) A.length (slotOf A.length bigkey) with
  | none => []
  | some h => collectFrom A (truncKey bigkey) A.length h

/-- A fresh table of nslots empty slots (CompactDict constructor:
A.resize(n_slots, {0xffffffff, 0})). -/
def emptyDict (nslots : Nat) : List (Nat × Nat) := List.replicate nslots (EMPTYK, 0)

/-- Modelled from the spec: CompactDict has no clear operation in the source;
spec section 4.4 says a logical clear "sets all slots to the empty sentinel
in O(S)". -/
def dictClear (A : List (Nat × Nat)) : List (Nat × Nat) := emptyDict A.length

/-- A sequence of insertions, failing if any single insertion diverges
(table full). -/
def insertAll (A : List (Nat × Nat)) : List (Nat × Nat) → Option (List (Nat × Nat))
  | [] => some A
  | kv :: rest =>
    match dictInsert A kv.1 kv.2 with
    | none => none
    | some A1 => insertAll A1 rest

/-- Invariant used below: the value v inserted under truncated key t is
reachable from slot home through a run of occupied slots none of which
carries t, ending at a slot holding (t, v). -/
def findableAt (A : List (Nat × Nat)) (t v home : Nat) : Prop :=
  ∃ m, m < A.length ∧ ent A ((home + m) % A.length) = (t, v) ∧
    ∀ i, i < m → (ent A ((home + i) % A.length)).1 ≠ EMPTYK ∧
      (ent A ((home + i) % A.length)).1 ≠ t

/-- Invariant: no slot of the table carries the truncated key t. -/
def noTrunc (A : List (Nat × Nat)) (t : Nat) : Prop :=
  ∀ j, (ent A j).1 ≠ t

/-! ## Sequential engine: DP chain walker (src/mitm_sequential.hpp) -/

/-- is_distinguished_point: 0 == (mask & digest). -/
def is_distinguished_point (digest mask : Nat) : Bool := 0 == (mask &&& digest)

/-- Loop body of generate_dist_point: apply f, bump the chain length, test
the hash of the output against the difficulty mask; fuel is the loop bound
k * 2^difficulty of the source. -/
def genLoop (f hsh : Nat → Nat) (mask : Nat) : Nat → Nat → Nat → Option (Nat × Nat)
  | 0, _, _ => none
  | fuel + 1, x, len =>
    if is_distinguished_point (hsh (f x)) mask then some (f x, len + 1)
    else genLoop f hsh mask fuel (f x) (len + 1)

/-- generate_dist_point: iterate x <- f(x) up to 40 * 2^d times, returning
the first iterate whose hash has d low zero bits together with the chain
length, or none if the bound is exhausted (chain-length counter starting
at 0, as in the sequential engine's caller). -/
def generate_dist_point (f hsh : Nat → Nat) (d s : Nat) : Option (Nat × Nat) :=
  genLoop f hsh (2 ^ d - 1) (40 * 2 ^ d) s 0

/-! ## Sequential engine: collision resolver walk (src/mitm_sequential.hpp) -/

/-- The two alignment loops of walk: advance an input n steps. -/
def iterate_advance (F : Nat → Nat) : Nat → Nat → Nat
  | 0, x => x
  | n + 1, x => iterate_advance F n (F x)

/-- The synchronous phase of walk: step both chains, comparing outputs each
step; on equality return true with the current (pre-image) buffer contents. -/
def walkLoop (F : Nat → Nat) : Nat → Nat → Nat → Bool × Nat × Nat
  | 0, a, b => (false, a, b)
  | fuel + 1, a, b =>
    if F a = F b then (true, a, b)
    else walkLoop F fuel (F a) (F b)

/-- walk: align the longer chain, then step both chains synchronously for
min len0 len1 steps. -/
def walk (F : Nat → Nat) (inp0 len0 inp1 len1 : Nat) : Bool × Nat × Nat :=
  walkLoop F (min len0 len1)
    (iterate_advance F (len0 - min len0 len1) inp0)
    (iterate_advance F (len1 - min len0 len1) inp1)

/-! ## Sequential engine: per-version attempt budget (src/mitm_sequential.hpp) -/

/-- Counter dynamics of the per-version inner loop of collision():
for (n_dist_points = 0; n_dist_points < B; ++n_dist_points) where the body
performs one DP attempt and executes an additional ++n_dist_points when the
attempt succeeds.  att t tells whether attempt number t finds a DP; the
result is (number of successful DP generations, number of attempts).  The
counter grows by at least one per iteration, so fuel B covers the loop. -/
def versionLoop (B : Nat) (att : Nat → Bool) : Nat → Nat → Nat → Nat → Nat × Nat
  | 0, _, t, s => (s, t)
  | fuel + 1, n, t, s =>
    if n < B then
      if att t then versionLoop B att fuel (n + 2) (t + 1) (s + 1)
      else versionLoop B att fuel (n + 1) (t + 1) s
    else (s, t)

/-- One version of the collision() main loop with dictionary size S:
budget 10 * S, counters starting at zero. -/
def versionRun (S : Nat) (att : Nat → Bool) : Nat × Nat :=
  versionLoop (10 * S) att (10 * S) 0 0 0

/-! ## Equal-size claw wrapper (src/include/mitm.hpp) -/

/-- Modulus of 64-bit machine arithmetic. -/
def U64 : Nat := 2 ^ 64

/-- EqualSizeClawWrapper::choose: ((x * (i | 1)) >> (m - 1)) & 1, the
multiplication overflowing mod 2^64. -/
def chooseBit (m i x : Nat) : Bool := ((((x * (i ||| 1)) % U64) >>> (m - 1)) &&& 1) == 1

/-- EqualSizeClawWrapper::mix: i ^ x. -/
def mix (i x : Nat) : Nat := i ^^^ x

/-- EqualSizeClawWrapper::swap: put the input chosen for f first.  The
source asserts choose(i, fst) and not choose(i, snd); those assertions hold
exactly when choose(i, a) and choose(i, b) differ, which is proved below. -/
def swapInputs (m i a b : Nat) : Nat × Nat :=
  (if chooseBit m i a then a else b, if chooseBit m i b then a else b)

/-- EqualSizeClawWrapper::mix_good_pair: reject same-branch candidates,
otherwise canonicalize with swap and apply the user predicate to the
demixed inputs. -/
def mix_good_pair (m : Nat) (good : Nat → Nat → Bool) (i a b : Nat) : Bool :=
  if chooseBit m i a = chooseBit m i b then false
  else good (mix i (swapInputs m i a b).1) (mix i (swapInputs m i a b).2)

/-! ## Distributed sender seed schedule (src/include/mpi/pcs_sender.hpp) -/

/-- The u64 seed counter of sender rank r at its k-th chain:
j = seed_base + 3 * rank + k * (3 * n_send), reduced mod 2^64. -/
def senderSeed (base r nsend k : Nat) : Nat := (base + 3 * r + 3 * nsend * k) % U64

/-- The chain starting point: start = j & mask. -/
def senderStart (mask base r nsend k : Nat) : Nat := senderSeed base r nsend k &&& mask

/-- The same seed counter viewed without 64-bit reduction. -/
def senderSeedZ (base r nsend k : Nat) : Nat := base + 3 * r + 3 * nsend * k

/-! ## Naive MPI claw search, phase-1 receiver filter
(src/include/mpi_naive_isend.hpp) -/

/-- Processing of the probe hits for one received pair (x, z): hits with
z != f(y) are counted as collision failures and discarded; surviving pairs
(y, x) are appended to the result only when is_good_pair(y, x) holds. -/
def phase1_hits (f : Nat → Nat) (good : Nat → Nat → Bool) (z x : Nat)
    (hits : List Nat) : List (Nat × Nat) :=
  hits.filterMap fun y => if z ≠ f y then none else if good y x then some (y, x) else none

/-- The phase-1 receiver loop composed with the phase-1 sender computation
z = g(x) (EXPENSIVE_F is defined, so the sender ships z with x): the result
vector accumulated over the received stream xs against dictionary A. -/
def naive_phase1 (f g : Nat → Nat) (good : Nat → Nat → Bool)
    (A : List (Nat × Nat)) (xs : List Nat) : List (Nat × Nat) :=
  xs.foldl (fun acc x => acc ++ phase1_hits f good (g x) x (dictProbe A (g x))) []

/-! ## Helper lemmas: iteration -/

lemma iterate_advance_eq (F : Nat → Nat) : ∀ n x, iterate_advance F n x = F^[n] x := by
  intro n
  induction n with
  | zero => intro x; rfl
  | succ n ih =>
    intro x
    simp only [iterate_advance]
    rw [ih, ← Function.iterate_succ_apply]

lemma walkLoop_spec (F : Nat → Nat) :
    ∀ fuel a b, (∃ t, t < fuel ∧ F (F^[t] a) = F (F^[t] b)) →
      ∃ j, j < fuel ∧ walkLoop F fuel a b = (true, F^[j] a, F^[j] b) ∧
        F (F^[j] a) = F (F^[j] b) ∧ ∀ i, i < j → F (F^[i] a) ≠ F (F^[i] b) := by
  intro fuel
  induction fuel with
  | zero => rintro a b ⟨t, ht, _⟩; omega
  | succ fuel ih =>
    rintro a b ⟨t, ht, heq⟩
    by_cases h : F a = F b
    · refine ⟨0, Nat.succ_pos _, ?_, by simpa using h, ?_⟩
      · simp [walkLoop, h]
      · intro i hi; exact absurd hi (Nat.not_lt_zero i)
    · have ht0 : t ≠ 0 := by
        rintro rfl
        simp only [Function.iterate_zero_apply] at heq
        exact h heq
      obtain ⟨t', rfl⟩ := Nat.exists_eq_succ_of_ne_zero ht0
      have heq' : F (F^[t'] (F a)) = F (F^[t'] (F b)) := by
        rw [← Function.iterate_succ_apply, ← Function.iterate_succ_apply]
        exact heq
      obtain ⟨j, hj, hw, hjeq, hmin⟩ := ih (F a) (F b) ⟨t', by omega, heq'⟩
      refine ⟨j + 1, by omega, ?_, ?_, ?_⟩
      · simp only [walkLoop, h, if_false]
        rw [hw, Function.iterate_succ_apply, Function.iterate_succ_apply]
      · rw [Function.iterate_succ_apply, Function.iterate_succ_apply]
        exact hjeq
      · intro i hi
        cases i with
        | zero => simpa using h
        | succ i' =>
          rw [Function.iterate_succ_apply, Function.iterate_succ_apply]
          exact hmin i' (by omega)

lemma walkLoop_merge (F : Nat → Nat) (c1 c2 m : Nat) (hm : 1 ≤ m)
    (h : F^[m] c1 = F^[m] c2) :
    ∃ j, j < m ∧ walkLoop F m c1 c2 = (true, F^[j] c1, F^[j] c2) ∧
      F (F^[j] c1) = F (F^[j] c2) ∧ ∀ i, i < j → F (F^[i] c1) ≠ F (F^[i] c2) := by
  obtain ⟨t, rfl⟩ : ∃ t, m = t + 1 := ⟨m - 1, by omega⟩
  apply walkLoop_spec
  refine ⟨t, by omega, ?_⟩
  simp only [Function.iterate_succ_apply'] at h
  exact h

/-! ## Claim theorems: C3 (collision resolver walk) -/

/-- Claim C3, counterexample: with both chain lengths zero the hypothesis of
the claim holds (iterate^0(inp0) = iterate^0(inp1), both inputs being the
same point 0), yet walk performs zero synchronized steps and returns false,
not true as the claim states. -/
theorem walk_zero_len_cex :
    (fun x => x + 1)^[0] 0 = (fun x => x + 1)^[0] 0 ∧
      walk (fun x => x + 1) 0 0 0 0 = (false, 0, 0) := ⟨rfl, rfl⟩

/-- Claim C3 (amended: both chain lengths must be at least 1): if two chains
with positive lengths len0, len1 reach the same point after len0 resp. len1
steps, walk advances the longer chain by the length difference, then steps
both chains synchronously; it returns true, and the returned buffers hold the
pair at the earliest synchronized step whose two outputs agree, no earlier
synchronized step producing equal outputs. -/
theorem walk_finds_merge (F : Nat → Nat) (inp0 len0 inp1 len1 : Nat)
    (h0 : 1 ≤ len0) (h1 : 1 ≤ len1) (hdp : F^[len0] inp0 = F^[len1] inp1) :
    ∃ j, j < min len0 len1 ∧
      walk F inp0 len0 inp1 len1 =
        (true, F^[j] (F^[len0 - min len0 len1] inp0),
          F^[j] (F^[len1 - min len0 len1] inp1)) ∧
      F (F^[j] (F^[len0 - min len0 len1] inp0)) =
        F (F^[j] (F^[len1 - min len0 len1] inp1)) ∧
      ∀ i, i < j →
        F (F^[i] (F^[len0 - min len0 len1] inp0)) ≠
          F (F^[i] (F^[len1 - min len0 len1] inp1)) := by
  have hm1 : 1 ≤ min len0 len1 := le_min h0 h1
  have ha : F^[min len0 len1] (F^[len0 - min len0 len1] inp0) = F^[len0] inp0 := by
    rw [← Function.iterate_add_apply]
    have hE : min len0 len1 + (len0 - min len0 len1) = len0 := by
      have := Nat.min_le_left len0 len1; omega
    rw [hE]
  have hb : F^[min len0 len1] (F^[len1 - min len0 len1] inp1) = F^[len1] inp1 := by
    rw [← Function.iterate_add_apply]
    have hE : min len0 len1 + (len1 - min len0 len1) = len1 := by
      have := Nat.min_le_right len0 len1; omega
    rw [hE]
  obtain ⟨j, hj, hw, hjeq, hmin⟩ :=
    walkLoop_merge F (F^[len0 - min len0 len1] inp0) (F^[len1 - min len0 len1] inp1)
      (min len0 len1) hm1 (by rw [ha, hb, hdp])
  refine ⟨j, hj, ?_, hjeq, hmin⟩
  unfold walk
  rw [iterate_advance_eq, iterate_advance_eq]
  exact hw

/-- Claim C3, witness: concrete run of walk at the amended theorem's
hypotheses. -/
theorem walk_finds_merge_witness : walk (fun _ => 0) 1 1 2 1 = (true, 1, 2) := by
  obtain ⟨j, hj, hw, _, _⟩ :=
    walk_finds_merge (fun _ => 0) 1 1 2 1 (by omega) (by omega) rfl
  have hj0 : j = 0 := by omega
  subst hj0
  simpa using hw

/-! ## Helper lemmas: DP chain walker -/

lemma genLoop_some (f hsh : Nat → Nat) (mask : Nat) :
    ∀ fuel x len e L, genLoop f hsh mask fuel x len = some (e, L) →
      ∃ j, j < fuel ∧ e = f^[j + 1] x ∧ L = len + (j + 1) ∧
        is_distinguished_point (hsh e) mask = true ∧
        ∀ i, i < j → is_distinguished_point (hsh (f^[i + 1] x)) mask = false := by
  intro fuel
  induction fuel with
  | zero => intro x len e L h; simp [genLoop] at h
  | succ fuel ih =>
    intro x len e L h
    simp only [genLoop] at h
    by_cases hd : is_distinguished_point (hsh (f x)) mask = true
    · rw [if_pos hd] at h
      simp only [Option.some.injEq, Prod.mk.injEq] at h
      obtain ⟨rfl, rfl⟩ := h
      refine ⟨0, by omega, ?_, by omega, hd, ?_⟩
      · rw [Nat.zero_add, Function.iterate_one]
      · intro i hi; exact absurd hi (Nat.not_lt_zero i)
    · rw [if_neg hd] at h
      rw [Bool.not_eq_true] at hd
      obtain ⟨j, hj, he, hL, hdp, hmin⟩ := ih (f x) (len + 1) e L h
      refine ⟨j + 1, by omega, ?_, by omega, hdp, ?_⟩
      · rw [he, ← Function.iterate_succ_apply]
      · intro i hi
        cases i with
        | zero => rw [Nat.zero_add, Function.iterate_one]; exact hd
        | succ i' =>
          rw [Function.iterate_succ_apply]
          exact hmin i' (by omega)

lemma genLoop_none (f hsh : Nat → Nat) (mask : Nat) :
    ∀ fuel x len, genLoop f hsh mask fuel x len = none ↔
      ∀ j, j < fuel → is_distinguished_point (hsh (f^[j + 1] x)) mask = false := by
  intro fuel
  induction fuel with
  | zero => intro x len; simp [genLoop]
  | succ fuel ih =>
    intro x len
    simp only [genLoop]
    by_cases hd : is_distinguished_point (hsh (f x)) mask = true
    · rw [if_pos hd]
      constructor
      · intro h; simp at h
      · intro h
        have h0 := h 0 (by omega)
        rw [Nat.zero_add, Function.iterate_one] at h0
        rw [hd] at h0
        cases h0
    · rw [if_neg hd]
      rw [Bool.not_eq_true] at hd
      rw [ih (f x) (len + 1)]
      constructor
      · intro h j hj
        cases j with
        | zero => rw [Nat.zero_add, Function.iterate_one]; exact hd
        | succ j' =>
          rw [Function.iterate_succ_apply]
          exact h j' (by omega)
      · intro h j hj
        rw [← Function.iterate_succ_apply]
        exact h (j + 1) (by omega)

/-! ## Claim theorems: C2 (DP chain walker) -/

/-- Claim C2: generate_dist_point iterates x <- mixf(i, x) at most 40 * 2^d
times; if it returns (e, L) then hash(e) masked by 2^d - 1 is zero, no
earlier produced iterate of the chain satisfies the DP condition, L counts
the applications of mixf so that mixf^L(s) = e with 1 <= L <= 40 * 2^d
(the chain-length counter starting at 0), and it returns none exactly when
the bound is exhausted without any produced iterate being distinguished. -/
theorem generate_dist_point_spec (f hsh : Nat → Nat) (d s : Nat) :
    (∀ e L, generate_dist_point f hsh d s = some (e, L) →
      is_distinguished_point (hsh e) (2 ^ d - 1) = true ∧ f^[L] s = e ∧
        1 ≤ L ∧ L ≤ 40 * 2 ^ d ∧
        ∀ t, 1 ≤ t → t < L →
          is_distinguished_point (hsh (f^[t] s)) (2 ^ d - 1) = false) ∧
    (generate_dist_point f hsh d s = none ↔
      ∀ t, 1 ≤ t → t ≤ 40 * 2 ^ d →
        is_distinguished_point (hsh (f^[t] s)) (2 ^ d - 1) = false) := by
  constructor
  · intro e L h
    unfold generate_dist_point at h
    obtain ⟨j, hj, he, hL, hdp, hmin⟩ :=
      genLoop_some f hsh (2 ^ d - 1) (40 * 2 ^ d) s 0 e L h
    have hL' : L = j + 1 := by omega
    subst hL'
    refine ⟨hdp, he.symm, by omega, by omega, ?_⟩
    intro t h1 h2
    obtain ⟨i, rfl⟩ : ∃ i, t = i + 1 := ⟨t - 1, by omega⟩
    exact hmin i (by omega)
  · unfold generate_dist_point
    rw [genLoop_none]
    constructor
    · intro h t h1 h2
      obtain ⟨i, rfl⟩ : ∃ i, t = i + 1 := ⟨t - 1, by omega⟩
      exact h i (by omega)
    · intro h j hj
      exact h (j + 1) (by omega) (by omega)

/-- Claim C2, witness: the chain from seed 0 under succ with difficulty 1
stops at the first even iterate 2 with chain length 2. -/
theorem generate_dist_point_spec_witness :
    is_distinguished_point (id 2) (2 ^ 1 - 1) = true ∧ Nat.succ^[2] 0 = 2 ∧
      1 ≤ 2 ∧ 2 ≤ 40 * 2 ^ 1 := by
  have h := (generate_dist_point_spec Nat.succ id 1 0).1 2 2 (by decide)
  exact ⟨h.1, h.2.1, h.2.2.1, h.2.2.2.1⟩

/-! ## Helper lemmas: per-version budget -/

lemma versionLoop_fst_le (B : Nat) (att : Nat → Bool) :
    ∀ fuel n t s, 2 * (versionLoop B att fuel n t s).1 ≤ 2 * s + (B + 1 - n) := by
  intro fuel
  induction fuel with
  | zero => intro n t s; simp only [versionLoop]; omega
  | succ fuel ih =>
    intro n t s
    simp only [versionLoop]
    by_cases hn : n < B
    · rw [if_pos hn]
      by_cases ha : att t = true
      · rw [if_pos ha]
        have := ih (n + 2) (t + 1) (s + 1)
        omega
      · rw [if_neg ha]
        have := ih (n + 1) (t + 1) s
        omega
    · rw [if_neg hn]
      omega

lemma versionLoop_snd_le (B : Nat) (att : Nat → Bool) :
    ∀ fuel n t s, (versionLoop B att fuel n t s).2 ≤ t + (B - n) := by
  intro fuel
  induction fuel with
  | zero => intro n t s; simp only [versionLoop]; omega
  | succ fuel ih =>
    intro n t s
    simp only [versionLoop]
    by_cases hn : n < B
    · rw [if_pos hn]
      by_cases ha : att t = true
      · rw [if_pos ha]
        have := ih (n + 2) (t + 1) (s + 1)
        omega
      · rw [if_neg ha]
        have := ih (n + 1) (t + 1) s
        omega
    · rw [if_neg hn]
      omega

lemma versionLoop_allfail (B : Nat) :
    ∀ fuel n t s, n ≤ B → B - n = fuel →
      versionLoop B (fun _ => false) fuel n t s = (s, t + (B - n)) := by
  intro fuel
  induction fuel with
  | zero =>
    intro n t s h1 h2
    have hn : n = B := by omega
    subst hn
    simp only [versionLoop]
    rw [Nat.sub_self, Nat.add_zero]
  | succ fuel ih =>
    intro n t s h1 h2
    have hn : n < B := by omega
    simp only [versionLoop]
    rw [if_pos hn, if_neg (by simp)]
    rw [ih (n + 1) (t + 1) s (by omega) (by omega)]
    congr 1
    omega

/-! ## Claim theorems: C7 (per-version attempt budget) -/

/-- Claim C7, counterexample: with S = 1 dictionary slot and every attempt
finding a DP, the inner loop admits only 5 successful DP generations before
the version changes, not the 10 * S = 10 the claim states, because each
successful generation increments the loop counter twice. -/
theorem version_budget_cex :
    (versionRun 1 (fun _ => true)).1 = 5 ∧ (versionRun 1 (fun _ => true)).1 ≠ 10 := by
  decide

/-- Claim C7 (amended): each version performs at most 10 * S DP attempts
(exactly 10 * S when every attempt fails to find a DP), but since a
successful DP generation increments the loop counter n_dist_points twice
(once in the body, once in the for-update), at most 5 * S successful DP
generations are admitted per version before the version is changed. -/
theorem version_budget (S : Nat) (att : Nat → Bool) :
    (versionRun S att).1 ≤ 5 * S ∧ (versionRun S att).2 ≤ 10 * S ∧
      (versionRun S (fun _ => false)).2 = 10 * S := by
  refine ⟨?_, ?_, ?_⟩
  · have := versionLoop_fst_le (10 * S) att (10 * S) 0 0 0
    unfold versionRun
    omega
  · have := versionLoop_snd_le (10 * S) att (10 * S) 0 0 0
    unfold versionRun
    omega
  · unfold versionRun
    rw [versionLoop_allfail (10 * S) (10 * S) 0 0 0 (by omega) (by omega)]
    omega

/-! ## Claim theorems: C8 (equal-size claw wrapper) -/

/-- Claim C8, counterexample: with m = 2, i = 2, a = 1, b = 0 the branches
differ (choose(2,1) = 1, choose(2,0) = 0) and swap orders the pair as (1, 0),
yet choose applied to the demixed value mix(2, swap.0) = 3 is 0, not 1 as the
claim states; moreover with i = 0, a = b = 0 (equal branches, where the claim
is also asserted since it quantifies over every a, b) even the unmixed first
component fails choose = 1. -/
theorem wrapper_roundtrip_cex :
    chooseBit 2 2 1 = true ∧ chooseBit 2 2 0 = false ∧
      chooseBit 2 2 (mix 2 (swapInputs 2 2 1 0).1) = false ∧
      chooseBit 2 0 (swapInputs 2 0 0 0).1 = false := by
  decide

/-- Claim C8 (amended: choose is applied to the swap components themselves,
before demixing, and the round-trip holds when the branches differ): whenever
choose(i,a) and choose(i,b) differ, swap(i,a,b) puts the f-side first, its
components satisfying choose(i, .) = 1 and = 0 respectively (which is what
the source asserts); and mix_good_pair(i,a,b) returns false whenever
choose(i,a) = choose(i,b). -/
theorem wrapper_roundtrip (m : Nat) (good : Nat → Nat → Bool) (i a b : Nat) :
    (chooseBit m i a ≠ chooseBit m i b →
      chooseBit m i (swapInputs m i a b).1 = true ∧
        chooseBit m i (swapInputs m i a b).2 = false) ∧
    (chooseBit m i a = chooseBit m i b → mix_good_pair m good i a b = false) := by
  unfold mix_good_pair swapInputs
  cases ha : chooseBit m i a <;> cases hb : chooseBit m i b <;> simp [ha, hb]

/-- Claim C8, witness: concrete instance with differing branches. -/
theorem wrapper_roundtrip_witness :
    chooseBit 2 0 (swapInputs 2 0 2 1).1 = true ∧
      chooseBit 2 0 (swapInputs 2 0 2 1).2 = false :=
  (wrapper_roundtrip 2 (fun _ _ => true) 0 2 1).1 (by decide)

/-! ## Claim theorems: C9 (sender seed schedule) -/

/-- Claim C9, counterexample: with 3 senders, mask = 3 (n = 2) and
seed_base = 0, rank 0 at its first chain and rank 1 at its second chain
derive the same masked chain start 0, so the start streams of the two
distinct ranks are not disjoint. -/
theorem sender_disjoint_cex :
    senderStart 3 0 0 3 0 = senderStart 3 0 1 3 1 ∧ (0 : Nat) ≠ 1 ∧
      (0 : Nat) < 3 ∧ (1 : Nat) < 3 := by
  decide

/-- Claim C9 (amended): the unreduced seed counters
j = seed_base + 3 * rank + 3 * n_senders * k are pairwise distinct across two
distinct ranks below n_senders, for every common seed_base; the masked chain
starts j & mask (and the counters after 64-bit wrap-around) need not be
disjoint. -/
theorem sender_seeds_disjoint (base nsend r r' k k' : Nat)
    (hr : r < nsend) (hr' : r' < nsend) (hne : r ≠ r') :
    senderSeedZ base r nsend k ≠ senderSeedZ base r' nsend k' := by
  unfold senderSeedZ
  intro h
  rw [Nat.mul_assoc, Nat.mul_assoc, Nat.add_assoc, Nat.add_assoc] at h
  have h1 := Nat.add_left_cancel h
  rw [← Nat.mul_add, ← Nat.mul_add] at h1
  have h2 : r + nsend * k = r' + nsend * k' :=
    Nat.eq_of_mul_eq_mul_left (by omega) h1
  have h4 := congrArg (· % nsend) h2
  simp only [Nat.add_mul_mod_self_left] at h4
  rw [Nat.mod_eq_of_lt hr, Nat.mod_eq_of_lt hr'] at h4
  exact hne h4

/-- Claim C9, witness: rank 0 and rank 1 of 3 senders never share an
unreduced seed counter; shown at chain indices 5 and 2. -/
theorem sender_seeds_disjoint_witness : senderSeedZ 0 0 3 5 ≠ senderSeedZ 0 1 3 2 :=
  sender_seeds_disjoint 0 3 0 1 5 2 (by decide) (by decide) (by decide)

/-! ## Helper lemmas: table entries -/

lemma ent_set_self : ∀ (A : List (Nat × Nat)) (j : Nat) (x : Nat × Nat),
    j < A.length → ent (A.set j x) j = x := by
  intro A
  induction A with
  | nil => intro j x h; simp at h
  | cons e rest ih =>
    intro j x h
    cases j with
    | zero => rfl
    | succ j' => exact ih j' x (by simpa using h)

lemma ent_set_ne : ∀ (A : List (Nat × Nat)) (j i : Nat) (x : Nat × Nat),
    i ≠ j → ent (A.set j x) i = ent A i := by
  intro A
  induction A with
  | nil => intro j i x h; rfl
  | cons e rest ih =>
    intro j i x h
    cases j with
    | zero =>
      cases i with
      | zero => exact absurd rfl h
      | succ i' => rfl
    | succ j' =>
      cases i with
      | zero => rfl
      | succ i' => exact ih j' i' x (by omega)

lemma ent_replicate : ∀ (n j : Nat),
    ent (List.replicate n ((EMPTYK : Nat), (0 : Nat))) j = (EMPTYK, 0) := by
  intro n
  induction n with
  | zero => intro j; rfl
  | succ n ih =>
    intro j
    cases j with
    | zero => rfl
    | succ j' => exact ih j'

lemma nextSlot_mod (S h : Nat) (hh : h < S) : nextSlot S h = (h + 1) % S := by
  unfold nextSlot
  by_cases he : h + 1 = S
  · rw [if_pos he, he, Nat.mod_self]
  · rw [if_neg he, Nat.mod_eq_of_lt (by omega)]

lemma nextSlot_lt (S h : Nat) (hh : h < S) : nextSlot S h < S := by
  rw [nextSlot_mod S h hh]
  exact Nat.mod_lt _ (by omega)

/-! ## Helper lemmas: insert probe loop -/

lemma findFree_spec (A : List (Nat × Nat)) :
    ∀ fuel h j, h < A.length → findFree A fuel h = some j →
      ∃ m, m < fuel ∧ j = (h + m) % A.length ∧ (ent A j).1 = EMPTYK ∧
        ∀ i, i < m → (ent A ((h + i) % A.length)).1 ≠ EMPTYK := by
  intro fuel
  induction fuel with
  | zero => intro h j hh hf; simp [findFree] at hf
  | succ fuel ih =>
    intro h j hh hf
    simp only [findFree] at hf
    by_cases he : (ent A h).1 = EMPTYK
    · rw [if_pos he] at hf
      obtain rfl := Option.some_inj.mp hf
      refine ⟨0, by omega, ?_, he, ?_⟩
      · rw [Nat.add_zero, Nat.mod_eq_of_lt hh]
      · intro i hi; exact absurd hi (Nat.not_lt_zero i)
    · rw [if_neg he] at hf
      obtain ⟨m', hm', hj, hemp, hpath⟩ := ih (nextSlot A.length h) j (nextSlot_lt _ _ hh) hf
      refine ⟨m' + 1, by omega, ?_, hemp, ?_⟩
      · rw [hj, nextSlot_mod _ _ hh, Nat.mod_add_mod]
        congr 1
        omega
      · intro i hi
        cases i with
        | zero =>
          rw [Nat.add_zero, Nat.mod_eq_of_lt hh]
          exact he
        | succ i' =>
          have hp := hpath i' (by omega)
          rw [nextSlot_mod _ _ hh, Nat.mod_add_mod] at hp
          have harith : h + 1 + i' = h + (i' + 1) := by omega
          rw [harith] at hp
          exact hp

lemma findFree_none_of_full (A : List (Nat × Nat))
    (hfull : ∀ j, j < A.length → (ent A j).1 ≠ EMPTYK) :
    ∀ fuel h, h < A.length → findFree A fuel h = none := by
  intro fuel
  induction fuel with
  | zero => intro h hh; rfl
  | succ fuel ih =>
    intro h hh
    simp only [findFree]
    rw [if_neg (hfull h hh)]
    exact ih (nextSlot A.length h) (nextSlot_lt _ _ hh)

lemma findFree_of_empty (A : List (Nat × Nat)) :
    ∀ m fuel h, h < A.length → m < fuel →
      (ent A ((h + m) % A.length)).1 = EMPTYK → (findFree A fuel h).isSome := by
  intro m
  induction m with
  | zero =>
    intro fuel h hh hf hemp
    obtain ⟨fuel', rfl⟩ : ∃ f, fuel = f + 1 := ⟨fuel - 1, by omega⟩
    rw [Nat.add_zero, Nat.mod_eq_of_lt hh] at hemp
    simp [findFree, hemp]
  | succ m ih =>
    intro fuel h hh hf hemp
    obtain ⟨fuel', rfl⟩ : ∃ f, fuel = f + 1 := ⟨fuel - 1, by omega⟩
    simp only [findFree]
    by_cases he : (ent A h).1 = EMPTYK
    · rw [if_pos he]; rfl
    · rw [if_neg he]
      apply ih fuel' (nextSlot A.length h) (nextSlot_lt _ _ hh) (by omega)
      rw [nextSlot_mod _ _ hh, Nat.mod_add_mod]
      have harith : h + 1 + m = h + (m + 1) := by omega
      rw [harith]
      exact hemp

lemma findFree_succeeds (A : List (Nat × Nat)) (h : Nat) (hh : h < A.length)
    (hfree : ∃ j, j < A.length ∧ (ent A j).1 = EMPTYK) :
    (findFree A A.length h).isSome := by
  obtain ⟨j, hjlt, hje⟩ := hfree
  have hidx : (h + (j + A.length - h) % A.length) % A.length = j := by
    rw [Nat.add_mod_mod]
    have h1 : h + (j + A.length - h) = j + A.length := by omega
    rw [h1, Nat.add_mod_right, Nat.mod_eq_of_lt hjlt]
  exact findFree_of_empty A ((j + A.length - h) % A.length) A.length h hh
    (Nat.mod_lt _ (by omega)) (by rw [hidx]; exact hje)

lemma dictInsert_eq (A : List (Nat × Nat)) (key value : Nat) (A' : List (Nat × Nat))
    (h : dictInsert A key value = some A') :
    ∃ j, j < A.length ∧ (ent A j).1 = EMPTYK ∧ A' = A.set j (truncKey key, value) := by
  unfold dictInsert at h
  cases hf : findFree A A.length (slotOf A.length key) with
  | none => rw [hf] at h; cases h
  | some j =>
    rw [hf] at h
    simp only [Option.map_some', Option.some.injEq] at h
    have hlen : 0 < A.length := by
      rcases Nat.eq_zero_or_pos A.length with h0 | h0
      · rw [h0] at hf; simp [findFree] at hf
      · exact h0
    obtain ⟨m, _, hjeq, hemp, _⟩ :=
      findFree_spec A A.length (slotOf A.length key) j (Nat.mod_lt _ hlen) hf
    exact ⟨j, by rw [hjeq]; exact Nat.mod_lt _ hlen, hemp, h.symm⟩

/-! ## Helper lemmas: findability invariants -/

lemma findableAt_insert (A A' : List (Nat × Nat)) (k' v' t v home : Nat)
    (hins : dictInsert A k' v' = some A') (_ht : truncKey k' ≠ t) (htE : t ≠ EMPTYK)
    (hf : findableAt A t v home) : findableAt A' t v home := by
  obtain ⟨j, hjlt, hjemp, rfl⟩ := dictInsert_eq A k' v' A' hins
  obtain ⟨m, hm, hslot, hpath⟩ := hf
  have hlen : (A.set j (truncKey k', v')).length = A.length := by simp
  refine ⟨m, by rw [hlen]; exact hm, ?_, ?_⟩
  · rw [hlen, ent_set_ne]
    · exact hslot
    · intro hc
      rw [← hc, hslot] at hjemp
      exact htE hjemp
  · intro i hi
    rw [hlen, ent_set_ne]
    · exact hpath i hi
    · intro hc
      rw [← hc] at hjemp
      exact (hpath i hi).1 hjemp

lemma noTrunc_insert (A A' : List (Nat × Nat)) (k' v' t : Nat)
    (hins : dictInsert A k' v' = some A') (ht : truncKey k' ≠ t)
    (hn : noTrunc A t) : noTrunc A' t := by
  obtain ⟨j, hjlt, hjemp, rfl⟩ := dictInsert_eq A k' v' A' hins
  intro i
  by_cases hij : i = j
  · subst hij
    rw [ent_set_self A i _ hjlt]
    exact ht
  · rw [ent_set_ne A j i _ hij]
    exact hn i

lemma findableAt_establish (A A' : List (Nat × Nat)) (k v : Nat)
    (hins : dictInsert A k v = some A') (hn : noTrunc A (truncKey k)) :
    findableAt A' (truncKey k) v (slotOf A.length k) := by
  unfold dictInsert at hins
  cases hf : findFree A A.length (slotOf A.length k) with
  | none => rw [hf] at hins; cases hins
  | some j =>
    rw [hf] at hins
    simp only [Option.map_some', Option.some.injEq] at hins
    have hlen : 0 < A.length := by
      rcases Nat.eq_zero_or_pos A.length with h0 | h0
      · rw [h0] at hf; simp [findFree] at hf
      · exact h0
    have hhome : slotOf A.length k < A.length := Nat.mod_lt _ hlen
    obtain ⟨m, hmfuel, hjeq, hemp, hpath⟩ :=
      findFree_spec A A.length (slotOf A.length k) j hhome hf
    subst hins
    have hjlt : j < A.length := by rw [hjeq]; exact Nat.mod_lt _ hlen
    have hlen2 : (A.set j (truncKey k, v)).length = A.length := by simp
    refine ⟨m, ?_, ?_, ?_⟩
    · rw [hlen2]; exact hmfuel
    · rw [hlen2, ← hjeq, ent_set_self A j _ hjlt]
    · intro i hi
      rw [hlen2]
      have hne : (slotOf A.length k + i) % A.length ≠ j := by
        intro hc
        have hp := hpath i hi
        rw [hc] at hp
        exact hp hemp
      rw [ent_set_ne A j _ _ hne]
      exact ⟨(hpath i hi), hn _⟩

lemma insertAll_cons (A : List (Nat × Nat)) (kv : Nat × Nat)
    (rest : List (Nat × Nat)) (B : List (Nat × Nat))
    (h : insertAll A (kv :: rest) = some B) :
    ∃ A1, dictInsert A kv.1 kv.2 = some A1 ∧ insertAll A1 rest = some B := by
  simp only [insertAll] at h
  cases hins : dictInsert A kv.1 kv.2 with
  | none => rw [hins] at h; cases h
  | some A1 =>
    rw [hins] at h
    exact ⟨A1, rfl, h⟩

lemma insertAll_append : ∀ (xs ys : List (Nat × Nat)) (A B : List (Nat × Nat)),
    insertAll A (xs ++ ys) = some B →
    ∃ A1, insertAll A xs = some A1 ∧ insertAll A1 ys = some B := by
  intro xs
  induction xs with
  | nil => intro ys A B h; exact ⟨A, rfl, h⟩
  | cons kv rest ih =>
    intro ys A B h
    rw [List.cons_append] at h
    obtain ⟨A1, hins, h2⟩ := insertAll_cons A kv (rest ++ ys) B h
    obtain ⟨A2, h3, h4⟩ := ih ys A1 B h2
    refine ⟨A2, ?_, h4⟩
    simp only [insertAll]
    rw [hins]
    exact h3

lemma insertAll_length : ∀ (kvs : List (Nat × Nat)) (A B : List (Nat × Nat)),
    insertAll A kvs = some B → B.length = A.length := by
  intro kvs
  induction kvs with
  | nil =>
    intro A B h
    simp only [insertAll] at h
    obtain rfl := Option.some_inj.mp h
    rfl
  | cons kv rest ih =>
    intro A B h
    obtain ⟨A1, hins, h2⟩ := insertAll_cons _ _ _ _ h
    obtain ⟨j, _, _, rfl⟩ := dictInsert_eq _ _ _ _ hins
    rw [ih _ _ h2]
    simp

lemma findableAt_insertAll : ∀ (kvs : List (Nat × Nat)) (A B : List (Nat × Nat)) (t v home : Nat),
    insertAll A kvs = some B → (∀ p ∈ kvs, truncKey p.1 ≠ t) → t ≠ EMPTYK →
    findableAt A t v home → findableAt B t v home := by
  intro kvs
  induction kvs with
  | nil =>
    intro A B t v home h _ _ hf
    simp only [insertAll] at h
    obtain rfl := Option.some_inj.mp h
    exact hf
  | cons kv rest ih =>
    intro A B t v home h hdj htE hf
    obtain ⟨A1, hins, h2⟩ := insertAll_cons A kv rest B h
    exact ih A1 B t v home h2 (fun p hp => hdj p (List.mem_cons_of_mem kv hp)) htE
      (findableAt_insert A A1 kv.1 kv.2 t v home hins
        (hdj kv (List.mem_cons_self kv rest)) htE hf)

lemma noTrunc_insertAll : ∀ (kvs : List (Nat × Nat)) (A B : List (Nat × Nat)) (t : Nat),
    insertAll A kvs = some B → (∀ p ∈ kvs, truncKey p.1 ≠ t) →
    noTrunc A t → noTrunc B t := by
  intro kvs
  induction kvs with
  | nil =>
    intro A B t h _ hn
    simp only [insertAll] at h
    obtain rfl := Option.some_inj.mp h
    exact hn
  | cons kv rest ih =>
    intro A B t h hdj hn
    obtain ⟨A1, hins, h2⟩ := insertAll_cons A kv rest B h
    exact ih A1 B t h2 (fun p hp => hdj p (List.mem_cons_of_mem kv hp))
      (noTrunc_insert A A1 kv.1 kv.2 t hins (hdj kv (List.mem_cons_self kv rest)) hn)

/-! ## Helper lemmas: probe -/

lemma probeScan_first (A : List (Nat × Nat)) (t : Nat) (htE : t ≠ EMPTYK) :
    ∀ m fuel h, h < A.length → m < fuel →
      (∀ i, i < m → (ent A ((h + i) % A.length)).1 ≠ EMPTYK ∧
        (ent A ((h + i) % A.length)).1 ≠ t) →
      (ent A ((h + m) % A.length)).1 = t →
      probeScan A t fuel h = some ((h + m) % A.length) := by
  intro m
  induction m with
  | zero =>
    intro fuel h hh hf hpath hslot
    obtain ⟨fuel', rfl⟩ : ∃ f, fuel = f + 1 := ⟨fuel - 1, by omega⟩
    have hidx : (h + 0) % A.length = h := by
      rw [Nat.add_zero, Nat.mod_eq_of_lt hh]
    rw [hidx] at hslot
    rw [hidx]
    simp only [probeScan]
    rw [if_neg (by rw [hslot]; exact htE), if_pos hslot]
  | succ m ih =>
    intro fuel h hh hf hpath hslot
    obtain ⟨fuel', rfl⟩ : ∃ f, fuel = f + 1 := ⟨fuel - 1, by omega⟩
    have h0 := hpath 0 (by omega)
    rw [Nat.add_zero, Nat.mod_eq_of_lt hh] at h0
    simp only [probeScan]
    rw [if_neg h0.1, if_neg h0.2]
    have hgoal : (h + (m + 1)) % A.length = (nextSlot A.length h + m) % A.length := by
      rw [nextSlot_mod _ _ hh, Nat.mod_add_mod]
      congr 1
      omega
    rw [hgoal]
    apply ih fuel' (nextSlot A.length h) (nextSlot_lt _ _ hh) (by omega)
    · intro i hi
      have hp := hpath (i + 1) (by omega)
      rw [nextSlot_mod _ _ hh, Nat.mod_add_mod]
      have harith : h + 1 + i = h + (i + 1) := by omega
      rw [harith]
      exact hp
    · rw [nextSlot_mod _ _ hh, Nat.mod_add_mod]
      have harith : h + 1 + m = h + (m + 1) := by omega
      rw [harith]
      exact hslot

lemma collectFrom_head (A : List (Nat × Nat)) (t h fuel : Nat) (hf : 0 < fuel)
    (hslot : (ent A h).1 = t) : (ent A h).2 ∈ collectFrom A t fuel h := by
  obtain ⟨fuel', rfl⟩ : ∃ f, fuel = f + 1 := ⟨fuel - 1, by omega⟩
  simp only [collectFrom]
  rw [if_pos hslot]
  exact List.mem_cons_self _ _

lemma truncKey_ne_emptyk (key : Nat) : truncKey key ≠ EMPTYK := by
  unfold truncKey DICTP EMPTYK
  have := Nat.mod_lt key (show 0 < 4294967291 by omega)
  omega

lemma dictProbe_of_findable (A : List (Nat × Nat)) (bigkey v : Nat)
    (hlen : 0 < A.length)
    (hf : findableAt A (truncKey bigkey) v (slotOf A.length bigkey)) :
    v ∈ dictProbe A bigkey := by
  obtain ⟨m, hm, hslot, hpath⟩ := hf
  have hhome : slotOf A.length bigkey < A.length := Nat.mod_lt _ hlen
  have hscan := probeScan_first A (truncKey bigkey) (truncKey_ne_emptyk bigkey) m A.length
    (slotOf A.length bigkey) hhome hm hpath (by rw [hslot])
  unfold dictProbe
  rw [hscan]
  have hc := collectFrom_head A (truncKey bigkey)
    ((slotOf A.length bigkey + m) % A.length) A.length hlen (by rw [hslot])
  rw [hslot] at hc
  exact hc

lemma dictProbe_clear (B : List (Nat × Nat)) (key : Nat) :
    dictProbe (dictClear B) key = [] := by
  unfold dictProbe
  have hscan : probeScan (dictClear B) (truncKey key) (dictClear B).length
      (slotOf (dictClear B).length key) = none := by
    rcases Nat.eq_zero_or_pos (dictClear B).length with h0 | h0
    · rw [h0]
      rfl
    · obtain ⟨n, hn⟩ : ∃ n, (dictClear B).length = n + 1 := ⟨(dictClear B).length - 1, by omega⟩
      rw [hn]
      simp only [probeScan]
      rw [if_pos]
      unfold dictClear emptyDict
      rw [ent_replicate]
  rw [hscan]

/-! ## Claim theorems: C5 (dictionary findability) -/

/-- Claim C5, counterexample: with 5 slots, inserting keys 10, 1 and
4294967301 (the last sharing truncated key 10 % 0xfffffffb = 4294967301 %
0xfffffffb = 10 and home slot 0 with the first) leaves the table not full,
yet probing the inserted key 4294967301 returns only [100]: the probe locks
onto the earlier run holding key 10's value 100 and stops at slot 1 (key 1),
so the value 300 stored for 4294967301 is not among the results and 100 is
a value of the different key 10 -- the inserted key is not findable. -/
theorem dict_findable_cex :
    insertAll (emptyDict 5) [(10, 100), (1, 200), (4294967301, 300)] =
      some [(10, 100), (1, 200), (10, 300), (EMPTYK, 0), (EMPTYK, 0)] ∧
    dictProbe [(10, 100), (1, 200), (10, 300), (EMPTYK, 0), (EMPTYK, 0)] 4294967301 = [100] ∧
    300 ∉ dictProbe [(10, 100), (1, 200), (10, 300), (EMPTYK, 0), (EMPTYK, 0)] 4294967301 ∧
    (ent [(10, 100), (1, 200), (10, 300), (EMPTYK, 0), (EMPTYK, 0)] 3).1 = EMPTYK := by
  decide

/-- Claim C5 (amended: the truncated keys of the inserted keys must be
pairwise distinct): for every sequence of insertions into the fresh table
that all succeed (no insertion hits a full table) and whose keys have
pairwise distinct truncated keys, every inserted key is findable -- it is
reachable from its home slot through a contiguous run of non-empty slots and
a probe with that key returns its stored value among the results; and after
a logical clear (spec-modelled; CompactDict has no clear in the source) no
key is findable. -/
theorem dict_findable (S : Nat) (kvs : List (Nat × Nat)) (A : List (Nat × Nat)) (k v : Nat)
    (hins : insertAll (emptyDict S) kvs = some A)
    (hdist : kvs.Pairwise (fun p q => truncKey p.1 ≠ truncKey q.1))
    (hmem : (k, v) ∈ kvs) :
    v ∈ dictProbe A k ∧ ∀ B key, dictProbe (dictClear B) key = [] := by
  refine ⟨?_, fun B key => dictProbe_clear B key⟩
  obtain ⟨pre, post, rfl⟩ := List.append_of_mem hmem
  obtain ⟨A1, h1, h2⟩ := insertAll_append pre ((k, v) :: post) (emptyDict S) A hins
  obtain ⟨A2, hkv, h3⟩ := insertAll_cons A1 (k, v) post A h2
  rw [List.pairwise_append] at hdist
  obtain ⟨hpre, hcons, hcross⟩ := hdist
  rw [List.pairwise_cons] at hcons
  obtain ⟨hpost, _⟩ := hcons
  have htE : truncKey k ≠ EMPTYK := truncKey_ne_emptyk k
  have hn0 : noTrunc (emptyDict S) (truncKey k) := by
    intro j
    unfold emptyDict
    rw [ent_replicate]
    exact fun hc => htE hc.symm
  have hn1 : noTrunc A1 (truncKey k) := by
    apply noTrunc_insertAll pre (emptyDict S) A1 (truncKey k) h1 ?_ hn0
    intro p hp
    exact hcross p hp (k, v) (List.mem_cons_self _ _)
  have hlen1 : A1.length = S := by
    have := insertAll_length pre (emptyDict S) A1 h1
    simpa [emptyDict] using this
  have hf2 : findableAt A2 (truncKey k) v (slotOf A1.length k) :=
    findableAt_establish A1 A2 k v hkv hn1
  have hf3 : findableAt A (truncKey k) v (slotOf A1.length k) := by
    apply findableAt_insertAll post A2 A (truncKey k) v (slotOf A1.length k) h3 ?_ htE hf2
    intro p hp
    exact (hpost p hp).symm
  have hlenA : A.length = S := by
    have := insertAll_length (pre ++ (k, v) :: post) (emptyDict S) A hins
    simpa [emptyDict] using this
  have hS : 0 < S := by
    obtain ⟨j, hjlt, _, _⟩ := dictInsert_eq A1 k v A2 hkv
    omega
  apply dictProbe_of_findable A k v (by omega)
  have hAA1 : A.length = A1.length := by omega
  rw [hAA1]
  exact hf3

/-- Claim C5, witness: a concrete successful insertion sequence with
distinct truncated keys, and a probe on a cleared table. -/
theorem dict_findable_witness :
    100 ∈ dictProbe [(EMPTYK, 0), (10, 100), (EMPTYK, 0)] 10 ∧
      dictProbe (dictClear [(3, 4)]) 9 = [] := by
  have h := dict_findable 3 [(10, 100)] [(EMPTYK, 0), (10, 100), (EMPTYK, 0)] 10 100
    (by decide) (by simp) (by decide)
  exact ⟨h.1, h.2 [(3, 4)] 9⟩

/-! ## Claim theorems: C6 (dictionary insertion termination) -/

/-- Claim C6, counterexample: on the full one-slot table [(5, 7)] the claim
asserts that insertion is detected within a probe budget of at most S = 1
slots and returns the outcome full; but the embedded insert loop (faithful
to the unbounded C++ loop) is still probing after 100 steps and never
produces any outcome -- the code has no probe budget and no full outcome,
and dictInsert only reports the divergence marker none. -/
theorem dict_full_loop_cex :
    findFree [((5 : Nat), (7 : Nat))] 100 0 = none ∧
      dictInsert [((5 : Nat), (7 : Nat))] 9 9 = none := by
  decide

/-- Claim C6 (amended: termination holds only when an empty slot exists; on
a full table the probe loop never exits): for every table with at least one
empty slot, the linear probe wrapping at S reaches an empty slot within fuel
S, so insertion succeeds; and for every full table the probe loop returns no
outcome for any probe budget. -/
theorem dict_insert_termination (A : List (Nat × Nat)) (key value h : Nat)
    (hh : h < A.length) :
    ((∃ j, j < A.length ∧ (ent A j).1 = EMPTYK) →
      (findFree A A.length h).isSome ∧ (dictInsert A key value).isSome) ∧
    ((∀ j, j < A.length → (ent A j).1 ≠ EMPTYK) →
      ∀ fuel, findFree A fuel h = none) := by
  constructor
  · intro hfree
    refine ⟨findFree_succeeds A h hh hfree, ?_⟩
    have hsome := findFree_succeeds A (slotOf A.length key) (Nat.mod_lt _ (by omega)) hfree
    obtain ⟨j, hj⟩ := Option.isSome_iff_exists.mp hsome
    unfold dictInsert
    rw [hj]
    rfl
  · intro hfull fuel
    exact findFree_none_of_full A hfull fuel h hh

/-- Claim C6, witness: insertion into a one-slot table with an empty slot
succeeds, and the probe loop on a full one-slot table makes no progress at
probe budget 3. -/
theorem dict_insert_termination_witness :
    (dictInsert [((EMPTYK : Nat), (0 : Nat))] 5 7).isSome ∧
      findFree [((5 : Nat), (7 : Nat))] 3 0 = none := by
  constructor
  · exact ((dict_insert_termination [(EMPTYK, 0)] 5 7 0 (by decide)).1
      ⟨0, by decide, by decide⟩).2
  · exact (dict_insert_termination [(5, 7)] 9 9 0 (by decide)).2 (by decide) 3

/-! ## Claim theorems: C10 (dictionary insertion frame property) -/

/-- Claim C10: insertion into a table with at least one empty slot is
frame-preserving: some empty slot j receives (key mod 0xfffffffb, value)
and every other slot -- in particular every slot that was non-empty before
-- holds exactly the entry it held before; hence inserting a duplicate key
never overwrites the earlier entry and multiple values for one key
coexist. -/
theorem dictInsert_frame (A : List (Nat × Nat)) (key value : Nat)
    (hfree : ∃ j, j < A.length ∧ (ent A j).1 = EMPTYK) :
    ∃ B j, dictInsert A key value = some B ∧ j < A.length ∧
      (ent A j).1 = EMPTYK ∧ ent B j = (truncKey key, value) ∧
      (∀ i, i ≠ j → ent B i = ent A i) ∧ B.length = A.length := by
  have hlen : 0 < A.length := by
    obtain ⟨j, hj, _⟩ := hfree
    omega
  have hsome := findFree_succeeds A (slotOf A.length key) (Nat.mod_lt _ hlen) hfree
  obtain ⟨j, hj⟩ := Option.isSome_iff_exists.mp hsome
  have hins : dictInsert A key value = some (A.set j (truncKey key, value)) := by
    unfold dictInsert
    rw [hj]
    rfl
  obtain ⟨m, _, hjeq, hemp, _⟩ :=
    findFree_spec A A.length (slotOf A.length key) j (Nat.mod_lt _ hlen) hj
  have hjlt : j < A.length := by rw [hjeq]; exact Nat.mod_lt _ hlen
  exact ⟨A.set j (truncKey key, value), j, hins, hjlt, hemp, ent_set_self A j _ hjlt,
    fun i hij => ent_set_ne A j i _ hij, by simp⟩

/-- Claim C10, witness: inserting into a one-slot table with an empty
slot. -/
theorem dictInsert_frame_witness : (dictInsert [((EMPTYK : Nat), (0 : Nat))] 5 7).isSome := by
  obtain ⟨B, j, h1, _⟩ := dictInsert_frame [(EMPTYK, 0)] 5 7 ⟨0, by decide, by decide⟩
  rw [h1]
  rfl

/-! ## Claim theorems: C4 (naive claw search result soundness) -/

lemma foldl_append_mem (hfn : Nat → List (Nat × Nat)) :
    ∀ (xs : List Nat) (acc : List (Nat × Nat)) (p : Nat × Nat),
      p ∈ xs.foldl (fun acc x => acc ++ hfn x) acc → p ∈ acc ∨ ∃ x ∈ xs, p ∈ hfn x := by
  intro xs
  induction xs with
  | nil => intro acc p h; exact Or.inl h
  | cons x rest ih =>
    intro acc p h
    simp only [List.foldl_cons] at h
    rcases ih (acc ++ hfn x) p h with h1 | h2
    · rcases List.mem_append.mp h1 with ha | hb
      · exact Or.inl ha
      · exact Or.inr ⟨x, List.mem_cons_self _ _, hb⟩
    · obtain ⟨y, hy, hp⟩ := h2
      exact Or.inr ⟨y, List.mem_cons_of_mem _ hy, hp⟩

/-- Claim C4: every pair (x0, x1) in the result vector accumulated by the
phase-1 receiver of naive_mpi_claw_search satisfies f(x0) = g(x1) and
is_good_pair(x0, x1): probe hits whose stored preimage y fails z = f(y) are
discarded (counted as collision failures), and pairs failing is_good_pair
are never pushed.  (The final MPI allgather only redistributes these per-rank
results.) -/
theorem naive_result_sound (f g : Nat → Nat) (good : Nat → Nat → Bool)
    (A : List (Nat × Nat)) (xs : List Nat) (x0 x1 : Nat)
    (hmem : (x0, x1) ∈ naive_phase1 f g good A xs) :
    f x0 = g x1 ∧ good x0 x1 = true := by
  unfold naive_phase1 at hmem
  rcases foldl_append_mem (fun x => phase1_hits f good (g x) x (dictProbe A (g x))) xs []
    (x0, x1) hmem with h | h
  · simp at h
  · obtain ⟨x, hx, hp⟩ := h
    unfold phase1_hits at hp
    rw [List.mem_filterMap] at hp
    obtain ⟨y, hy, hsome⟩ := hp
    by_cases hz : g x ≠ f y
    · rw [if_pos hz] at hsome; cases hsome
    · rw [if_neg hz] at hsome
      push_neg at hz
      by_cases hg : good y x = true
      · rw [if_pos hg] at hsome
        simp only [Option.some.injEq, Prod.mk.injEq] at hsome
        obtain ⟨rfl, rfl⟩ := hsome
        exact ⟨hz.symm, hg⟩
      · rw [if_neg hg] at hsome; cases hsome

/-- Claim C4, witness: a dictionary holding (7, 7) and the received stream
[7] produce the result pair (7, 7), which satisfies both conditions. -/
theorem naive_result_sound_witness :
    id 7 = id 7 ∧ (fun _ _ => true) 7 7 = true :=
  naive_result_sound id id (fun _ _ => true)
    [(EMPTYK, 0), (EMPTYK, 0), (7, 7), (EMPTYK, 0), (EMPTYK, 0)] [7] 7 7 (by decide)
